import Mathlib

/-
Verification of the Mimeo association resolver, association store, command
builder and MIME-type parser (Mimeo.py) against its natural-language
specification. Strings are modelled as lists of characters; Python dicts
(insertion-ordered) are modelled as association lists where assignment
replaces the first matching key in place and appends otherwise.
-/

set_option autoImplicit false

namespace Mimeo

/-- Strings are modelled as lists of characters. -/
abbrev Str := List Char

/-- Whitespace characters stripped by the Python str.strip family. -/
def pySpace (c : Char) : Bool :=
  c = ' ' || c = '\t' || c = '\n' || c = '\r' || c = '\x0b' || c = '\x0c'

/-- Model of Python str.lstrip(). -/
def pyLstrip (s : Str) : Str := s.dropWhile pySpace

/-- Model of Python str.rstrip(). -/
def pyRstrip (s : Str) : Str := (s.reverse.dropWhile pySpace).reverse

/-- Model of Python str.strip(). -/
def pyStrip (s : Str) : Str := pyRstrip (pyLstrip s)

/-- Whether pat is a prefix of s (executable). -/
def startsWithTok : Str → Str → Bool
  | [], _ => true
  | _ :: _, [] => false
  | p :: pt, c :: ct => p = c && startsWithTok pt ct

/-- Whether pat occurs as a contiguous substring of s, as the Python
in-operator on strings. -/
def containsSub (pat : Str) : Str → Bool
  | [] => startsWithTok pat []
  | c :: t => startsWithTok pat (c :: t) || containsSub pat t

/-- Model of Python s.split(sep): split on every occurrence of sep, producing
one part more than the number of separators. -/
def splitAllOn (sep : Char) : Str → List Str
  | [] => [[]]
  | c :: t =>
    if c = sep then
      [] :: splitAllOn sep t
    else
      match splitAllOn sep t with
      | [] => [[c]]
      | p :: ps => (c :: p) :: ps

/-- Model of Python s.split(sep, 1): split on the first occurrence of sep,
returning none when sep does not occur (where Python raises ValueError for
the unpacking idiom used in the source). -/
def splitOnceOn (sep : Char) : Str → Option (Str × Str)
  | [] => none
  | c :: t =>
    if c = sep then some ([], t)
    else
      match splitOnceOn sep t with
      | none => none
      | some (a, b) => some (c :: a, b)

/-- Model of Python s.rsplit(sep, 1): split on the last occurrence of sep. -/
def rsplitOnceOn (sep : Char) (s : Str) : Option (Str × Str) :=
  match splitOnceOn sep s.reverse with
  | none => none
  | some (a, b) => some (b.reverse, a.reverse)

/-- Join a list of strings with the given separator character, as the Python
sep.join idiom. -/
def joinOn (sep : Char) : List Str → Str
  | [] => []
  | [s] => s
  | s :: t => s ++ sep :: joinOn sep t

/-- Model of os.path.basename for POSIX paths: everything after the last
slash. -/
def pyBasename (s : Str) : Str :=
  match rsplitOnceOn '/' s with
  | none => s
  | some (_, b) => b

/-- Python dict assignment on an insertion-ordered association list: replace
the value at the first matching key in place, append a new pair otherwise. -/
def dictSet {α β : Type} [DecidableEq α] : List (α × β) → α → β → List (α × β)
  | [], k, v => [(k, v)]
  | (k', v') :: t, k, v =>
    if k' = k then (k, v) :: t else (k', v') :: dictSet t k v

/-- Python dict lookup on an association list: first matching key. -/
def dictGet {α β : Type} [DecidableEq α] : List (α × β) → α → Option β
  | [], _ => none
  | (k', v') :: t, k => if k' = k then some v' else dictGet t k

/-- Python del on an association list: remove the first matching pair; a
missing key leaves the list unchanged (the source swallows the KeyError). -/
def dictDel {α β : Type} [DecidableEq α] : List (α × β) → α → List (α × β)
  | [], _ => []
  | (k', v') :: t, k => if k' = k then t else (k', v') :: dictDel t k

/-- Keys of an association list in order. -/
def dictKeys {α β : Type} (l : List (α × β)) : List α := l.map Prod.fst

/-- Python list.remove: delete the first occurrence of v, or report failure
(ValueError) when v is absent. -/
def removeFirst {α : Type} [DecidableEq α] : List α → α → Option (List α)
  | [], _ => none
  | x :: t, v =>
    if x = v then some t
    else
      match removeFirst t v with
      | none => none
      | some t' => some (x :: t')

/-- Association tables as handed to save/add/remove: section name to key to
ordered value list, insertion-ordered. -/
abbrev STable := List (Str × List (Str × List Str))

/-- Parsed association tables: parse_associations keys its dictionary by the
current section, which is Python None before the first header line. -/
abbrev PTable := List (Option Str × List (Str × List Str))

/-- Read table[s][k]. -/
def tableGet {α : Type} [DecidableEq α]
    (t : List (α × List (Str × List Str))) (s : α) (k : Str) : Option (List Str) :=
  match dictGet t s with
  | none => none
  | some es => dictGet es k

/-- The assignment in parse_associations: set table[s][k] when section s is
present (replacing any existing value for k), otherwise append a fresh
section holding only k. -/
def tableAssign {α : Type} [DecidableEq α] :
    List (α × List (Str × List Str)) → α → Str → List Str →
    List (α × List (Str × List Str))
  | [], s, k, v => [(s, [(k, v)])]
  | (s', es) :: t, s, k, v =>
    if s' = s then (s', dictSet es k v) :: t
    else (s', es) :: tableAssign t s k v

/-- Values parsed from the right-hand side of a key=value line: empty raw
segments are dropped before stripping, then each kept segment is stripped
and reduced to its basename. -/
def parseValues (rest : Str) : List Str :=
  ((splitAllOn ';' rest).filter (fun d => d ≠ [])).map (fun d => pyBasename (pyStrip d))

/-- One line of parse_associations: skip blanks, comments and lines without
an equals sign, switch section on a bracketed header, and assign the parsed
values when at least one raw segment is non-empty. -/
def parseAssocStep (st : Option Str × PTable) (line : Str) : Option Str × PTable :=
  match pyStrip line with
  | [] => st
  | c :: t =>
    if c = '#' then st
    else if c = '[' ∧ (c :: t).getLast? = some ']' then
      (some ((c :: t).drop 1).dropLast, st.2)
    else
      match splitOnceOn '=' (c :: t) with
      | none => st
      | some (km, rest) =>
        let ds := parseValues rest
        if ds = [] then st
        else (st.1, tableAssign st.2 st.1 (pyRstrip km) ds)

/-- Model of parse_associations over the lines of an association file. -/
def parse_associations (lines : List Str) : PTable :=
  (lines.foldl parseAssocStep (none, [])).2

/-- Reference reading of parse_associations for one cell, used to state the
last-assignment-wins property: the same line classification as the parser,
tracking only the current section and the value list of the most recent
entry line for the given section name and key whose parsed values are
non-empty. -/
def lastValStep (s k : Str) (st : Option Str × Option (List Str)) (line : Str) :
    Option Str × Option (List Str) :=
  match pyStrip line with
  | [] => st
  | c :: t =>
    if c = '#' then st
    else if c = '[' ∧ (c :: t).getLast? = some ']' then
      (some ((c :: t).drop 1).dropLast, st.2)
    else
      match splitOnceOn '=' (c :: t) with
      | none => st
      | some (km, rest) =>
        let ds := parseValues rest
        if ds = [] then st
        else if st.1 = some s ∧ pyRstrip km = k then (st.1, some ds)
        else (st.1, st.2)

/-- The value list of the last entry line for the given section and key with
at least one non-empty raw value, scanning a whole file. -/
def lastEntryValues (s k : Str) (lines : List Str) : Option (List Str) :=
  (lines.foldl (lastValStep s k) (none, none)).2

/-- Model of remove_empty_associations: drop keys with empty value lists,
then drop sections left without keys. -/
def remove_empty_associations (t : STable) : STable :=
  (t.map (fun se => (se.1, se.2.filter (fun kv => kv.2 ≠ [])))).filter
    (fun se => se.2 ≠ [])

/-- Python string comparison, lexicographic on code points. -/
def strLt : Str → Str → Bool
  | [], [] => false
  | [], _ :: _ => true
  | _ :: _, [] => false
  | a :: as, b :: bs => if a = b then strLt as bs else decide (a < b)

/-- Insert an entry into a key-sorted entry list, after entries whose key is
not greater (Python sorted is stable and ascending). -/
def insertEntryS (x : Str × List Str) : List (Str × List Str) → List (Str × List Str)
  | [] => [x]
  | y :: t => if strLt x.1 y.1 then x :: y :: t else y :: insertEntryS x t

/-- Model of Python sorted(entries.items()): entries reordered by key. -/
def sortEntries (es : List (Str × List Str)) : List (Str × List Str) :=
  es.foldr insertEntryS []

/-- The lines written by save_associations: per surviving section a header
line then one key=v1;...;vn; line per key in sorted order, followed by one
blank line when more than one section was written. -/
def save_associations_lines (t : STable) : List Str :=
  let t' := remove_empty_associations t
  (t'.flatMap (fun se =>
    if se.2 = [] then []
    else
      ('[' :: se.1 ++ [']']) ::
        ((sortEntries se.2).filter (fun kv => kv.2 ≠ [])).map
          (fun kv => kv.1 ++ '=' :: joinOn ';' kv.2 ++ [';'])))
  ++ (if 1 < t'.length then [[]] else [])

/-- The character stream written by save_associations: every written line is
terminated by a newline. -/
def save_associations (t : STable) : Str :=
  (save_associations_lines t).flatMap (fun l => l ++ ['\n'])

/-- Well-formedness of a stored key for the save/load roundtrip: non-empty,
no surrounding whitespace, no line break, no equals sign, and not starting
with the comment character. -/
def CleanKey (k : Str) : Prop :=
  k ≠ [] ∧ pyLstrip k = k ∧ pyRstrip k = k ∧
    '\n' ∉ k ∧ '\r' ∉ k ∧ '=' ∉ k ∧ k.head? ≠ some '#'

/-- Well-formedness of a stored value: a bare non-empty desktop identifier
with no surrounding whitespace, line break, semicolon or path separator. -/
def CleanValue (v : Str) : Prop :=
  v ≠ [] ∧ pyStrip v = v ∧ '\n' ∉ v ∧ '\r' ∉ v ∧ ';' ∉ v ∧ '/' ∉ v

/-- Well-formedness of a whole table for the roundtrip: duplicate-free
section names without line breaks, duplicate-free keys per section, clean
keys and clean values. -/
def CleanTable (t : STable) : Prop :=
  (dictKeys t).Nodup ∧
  ∀ se ∈ t, ('\n' ∉ se.1 ∧ '\r' ∉ se.1) ∧ (dictKeys se.2).Nodup ∧
    ∀ kv ∈ se.2, CleanKey kv.1 ∧ ∀ v ∈ kv.2, CleanValue v

/-- Model of add_association: with truthy section, key and value, move the
value to the front of table[s][k], creating key and section as needed. -/
def add_association (t : STable) (s k v : Str) : STable :=
  if s ≠ [] ∧ k ≠ [] ∧ v ≠ [] then
    match dictGet t s with
    | some es =>
      match dictGet es k with
      | some vs => dictSet t s (dictSet es k (v :: vs.filter (fun x => decide (x ≠ v))))
      | none => dictSet t s (dictSet es k [v])
    | none => t ++ [(s, [(k, [v])])]
  else t

/-- Model of remove_association: with a truthy table, section and key, a
falsy value deletes the whole key, otherwise the first occurrence of the
value is removed and the key is deleted when its list becomes empty; missing
sections, keys or values are ignored. -/
def remove_association (t : STable) (s k : Str) (v : Option Str) : STable :=
  if t ≠ [] ∧ s ≠ [] ∧ k ≠ [] then
    match dictGet t s with
    | none => t
    | some es =>
      match v with
      | none => dictSet t s (dictDel es k)
      | some v =>
        if v = [] then dictSet t s (dictDel es k)
        else
          match dictGet es k with
          | none => t
          | some vs =>
            match removeFirst vs v with
            | none => t
            | some vs' =>
              if vs' = [] then dictSet t s (dictDel es k)
              else dictSet t s (dictSet es k vs')
  else t

/-- Lexer modes of the POSIX shlex state machine used by shlex.split. -/
inductive LexMode
  | ws
  | word
  | inQuote (q : Char)
  | escOut
  | escInDq
deriving DecidableEq

/-- State of the shlex state machine. -/
structure LexState where
  acc : List Str
  token : Str
  quoted : Bool
  mode : LexMode

/-- Whitespace for shlex.split. -/
def lexWhitespace (c : Char) : Bool := c = ' ' || c = '\t' || c = '\r' || c = '\n'

/-- Finish the current token at a word boundary: emitted unless it is empty
and no quote contributed to it. -/
def lexEmit (st : LexState) : LexState :=
  { acc := if st.token ≠ [] ∨ st.quoted then st.acc ++ [st.token] else st.acc
    token := []
    quoted := false
    mode := LexMode.ws }

/-- One character of shlex.split in POSIX whitespace-split mode: quotes open
quoted sections, a backslash escapes any character outside quotes and only
the double quote and backslash inside double quotes; single quotes are
literal until the closing quote. -/
def shlexStep (st : LexState) (c : Char) : LexState :=
  match st.mode with
  | LexMode.ws =>
    if lexWhitespace c then st
    else if c = '\'' ∨ c = '"' then { st with quoted := true, mode := LexMode.inQuote c }
    else if c = '\\' then { st with mode := LexMode.escOut }
    else { st with token := st.token ++ [c], mode := LexMode.word }
  | LexMode.word =>
    if lexWhitespace c then lexEmit st
    else if c = '\'' ∨ c = '"' then { st with quoted := true, mode := LexMode.inQuote c }
    else if c = '\\' then { st with mode := LexMode.escOut }
    else { st with token := st.token ++ [c] }
  | LexMode.inQuote q =>
    if c = q then { st with mode := LexMode.word }
    else if q = '"' ∧ c = '\\' then { st with mode := LexMode.escInDq }
    else { st with token := st.token ++ [c] }
  | LexMode.escOut =>
    { st with token := st.token ++ [c], mode := LexMode.word }
  | LexMode.escInDq =>
    { st with
      token := st.token ++ (if c ≠ '"' ∧ c ≠ '\\' then ['\\', c] else [c])
      mode := LexMode.inQuote '"' }

/-- End of input for shlex.split: an open quote or pending escape raises
ValueError, otherwise the pending token is emitted. -/
def shlexFinish (st : LexState) : Except Unit (List Str) :=
  match st.mode with
  | LexMode.ws => Except.ok st.acc
  | LexMode.word => Except.ok (lexEmit st).acc
  | _ => Except.error ()

/-- Model of shlex.split (POSIX rules, whitespace split, no comments). -/
def pyShlexSplit (s : Str) : Except Unit (List Str) :=
  shlexFinish (s.foldl shlexStep ⟨[], [], false, LexMode.ws⟩)

/-- Characters shlex.quote leaves unquoted: the ASCII word characters
plus at-sign, percent, plus, equals, colon, comma, dot, slash and dash. -/
def shlexSafeChar (c : Char) : Bool :=
  c.isAlpha || c.isDigit || ['_', '@', '%', '+', '=', ':', ',', '.', '/', '-'].contains c

/-- Model of shlex.quote: safe words pass through, everything else is
wrapped in single quotes with embedded single quotes spliced out. -/
def pyShlexQuote (w : Str) : Str :=
  if w = [] then ['\'', '\'']
  else if w.all shlexSafeChar then w
  else '\'' :: (w.flatMap (fun c => if c = '\'' then ['\'', '"', '\'', '"', '\''] else [c])) ++ ['\'']

/-- The terminal command placeholder. -/
def TERM_PLACEHOLDER : Str := ['%', 's']

/-- Character scan used for placeholders embedded inside a wrapper word: a
percent escapes the next character, an escaped s becomes the joined quoted
application command, any other escaped character is kept bare and a trailing
percent is dropped. -/
def interpTermWordGo (sub : Str) : Str → Bool → Str
  | [], _ => []
  | c :: t, escaped =>
    if escaped then (if c = 's' then sub else [c]) ++ interpTermWordGo sub t false
    else if c = '%' then interpTermWordGo sub t true
    else c :: interpTermWordGo sub t false

/-- Model of interpolate_term_cmd: the wrapper template is shlex-split; a
word equal to the placeholder splices the application command, a
single-quoted placeholder word becomes the command joined into one quoted
word, and every other word goes through the embedded-placeholder scan. The
source sets a seen flag in the first two cases but never reads it, so no
trailing append of the application command takes place. -/
def interpolate_term_cmd (term_cmd : Str) (app_cmd : List Str) : Except Unit (List Str) :=
  match pyShlexSplit term_cmd with
  | Except.error e => Except.error e
  | Except.ok words =>
    let app_cmd_word := joinOn ' ' (app_cmd.map pyShlexQuote)
    Except.ok (words.flatMap (fun w =>
      if w = TERM_PLACEHOLDER then app_cmd
      else if w = '\'' :: TERM_PLACEHOLDER ++ ['\''] then [app_cmd_word]
      else [interpTermWordGo app_cmd_word w false]))

/-- Characters that force quoting of an Exec word. -/
def EXEC_RESERVED : Str := " \t\n\"'\\><~|&;$*?#()`".toList

/-- Characters escaped inside a quoted Exec word. -/
def EXEC_ESCAPED : Str := "\"`$\\".toList

/-- Model of exec_quote_word. The source yields the literal two-character
string backslash-c for every escaped character (not the character itself);
the model reproduces that output faithfully. -/
def exec_quote_word (w : Str) : Str :=
  '"' :: (w.flatMap (fun c => if EXEC_ESCAPED.contains c then ['\\', 'c'] else [c])) ++ ['"']

/-- Model of exec_quote_exec: words containing a reserved character are
quoted, the rest pass through. The source yields the unflattened generator
object for quoted words; the model uses the character sequence that
generator produces. -/
def exec_quote_exec (cmd : List Str) : List Str :=
  cmd.map (fun w => if EXEC_RESERVED.any (fun c => w.contains c) then exec_quote_word w else w)

/-- The Exec value written by create_desktop_entry: the space join of the
quoted command words. -/
def create_desktop_entry_exec (cmd : List Str) : Str :=
  joinOn ' ' (exec_quote_exec cmd)

/-- Model of str.replace applied to double percents: scan left to right
dropping each non-overlapping occurrence. -/
def stripDoublePercent : Str → Str
  | [] => []
  | '%' :: '%' :: t => stripDoublePercent t
  | c :: t => c :: stripDoublePercent t

/-- The distinct expandable field codes found in an Exec template after
discounting literal double percents, in the probe order of the source. -/
def exec_field_codes (exe : Str) : List Char :=
  ['f', 'u', 'F', 'U'].filter (fun c => containsSub ['%', c] (stripDoublePercent exe))

/-- Model of parse_unexpandable_field_codes: a percent escapes the next
character, which is replaced through the field-code map or dropped when
unknown; a trailing percent is dropped. -/
def parse_unexpandable_field_codes (fc : Char → Option Str) : Str → Bool → Str
  | [], _ => []
  | c :: t, fcFlag =>
    if fcFlag then ((fc c).getD []) ++ parse_unexpandable_field_codes fc t false
    else if c = '%' then parse_unexpandable_field_codes fc t true
    else c :: parse_unexpandable_field_codes fc t false

/-- Model of parse_field_codes, parameterized by the environment-dependent
ensure_path and ensure_url resolvers. Whole words %i, %F and %U expand to
the icon option, the resolved paths and the URLs of all arguments; a bare %f
or %u without arguments vanishes; every other word is scanned with a map
binding percent, c, k, f and u, where f and u use the first argument. -/
def parse_field_codes (ep : Str → Option Str) (eu : Str → Str)
    (word name : Str) (args : List Str) (icon path : Str) (omitEmpty : Bool) :
    List Str :=
  if word = ['%', 'i'] then
    if icon ≠ [] then ["--icon".toList, icon] else []
  else if word = ['%', 'F'] then args.filterMap ep
  else if word = ['%', 'U'] then args.map eu
  else if (word = ['%', 'f'] ∨ word = ['%', 'u']) ∧ args = [] then []
  else
    let fcF : Str := match args with | [] => [] | a :: _ => (ep a).getD []
    let fcU : Str := match args with | [] => [] | a :: _ => eu a
    let fc : Char → Option Str := fun c =>
      if c = '%' then some ['%']
      else if c = 'c' then some name
      else if c = 'k' then some path
      else if c = 'f' then some fcF
      else if c = 'u' then some fcU
      else none
    let w := parse_unexpandable_field_codes fc word false
    if w ≠ [] ∨ omitEmpty = false ∨ (word ≠ ['%', 'k'] ∧ word ≠ ['%', 'f'] ∧ word ≠ ['%', 'u']) then
      [w]
    else []

/-- Failure modes of Exec interpolation: the explicit validation error for
ambiguous field codes, or the ValueError shlex raises on bad quoting. -/
inductive ExecErr
  | validation
  | badQuoting
deriving DecidableEq

/-- Model of exec_field_to_cmds_without_term: more than one distinct code
among f, u, F, U is a validation error; otherwise the template is split into
words and interpolated once per argument for the singular codes f and u,
once in total otherwise. -/
def exec_field_to_cmds_without_term (ep : Str → Option Str) (eu : Str → Str)
    (exe : Str) (args : List Str) (name icon path : Str) :
    Except ExecErr (List (List Str)) :=
  let codes := exec_field_codes exe
  if 1 < codes.length then Except.error ExecErr.validation
  else
    match pyShlexSplit exe with
    | Except.error _ => Except.error ExecErr.badQuoting
    | Except.ok words =>
      let single := codes.any (fun c => c = 'f' || c = 'u')
      let argss : List (List Str) :=
        if args = [] then [[]]
        else if single then args.map (fun a => [a])
        else [args]
      Except.ok (argss.map (fun aa =>
        words.flatMap (fun w => parse_field_codes ep eu w name aa icon path false)))

/-- Model of parse_mimetype: the string is split at the first slash (a
missing slash raises ValueError), the remainder at the first dot into the
tree, at the last semicolon into the parameters and at the first plus into
subtype and suffix. -/
def parse_mimetype (m : Str) :
    Except Unit (Str × Option Str × Str × Option Str × Option Str) :=
  match splitOnceOn '/' m with
  | none => Except.error ()
  | some (tn, rest0) =>
    let tr : Option Str × Str :=
      match splitOnceOn '.' rest0 with
      | some (t, r) => (some t, r)
      | none => (none, rest0)
    let rp : Str × Option Str :=
      match rsplitOnceOn ';' tr.2 with
      | some (r, p) => (r, some p)
      | none => (tr.2, none)
    let ss : Str × Option Str :=
      match splitOnceOn '+' rp.1 with
      | some (s, u) => (s, some u)
      | none => (rp.1, none)
    Except.ok (tn, tr.1, ss.1, ss.2, rp.2)

/-- Model of strip_mimetype: top-level type and subtype rejoined with a
slash, propagating the parse failure. -/
def strip_mimetype (m : Str) : Except Unit Str :=
  match parse_mimetype m with
  | Except.error e => Except.error e
  | Except.ok (tn, _, sub, _, _) => Except.ok (tn ++ '/' :: sub)

/-- One mimeapps.list configuration source as seen by
associated_desktop_paths for a fixed MIME-type: its Removed Associations,
Added Associations and co-located MIME Cache entries for that type, plus the
desktop identifiers whose file exists in the source's directory. -/
structure ListSource where
  removedA : List Str
  addedA : List Str
  cacheA : List Str
  dirFiles : List Str

/-- Accumulator of associated_desktop_paths: the blacklist of identifiers
seen removed so far, the ordered candidate list, and the desktop paths
yielded so far (as identifiers per source directory). -/
structure ResolveState where
  blacklist : List Str
  added : List Str
  out : List Str

/-- The extend call on the candidate list: each new identifier is appended
when it is neither blacklisted nor already present, checking presence
against the list as it grows. -/
def dedupExtend (bl : List Str) (base new : List Str) : List Str :=
  new.foldl (fun acc a => if a ∉ bl ∧ a ∉ acc then acc ++ [a] else acc) base

/-- One source of associated_desktop_paths: union the removals into the
blacklist, filter the candidates, extend with the new additions, build the
per-directory local list with cache entries deduplicated against the
candidates only, and yield those whose desktop file exists here. -/
def resolveStep (st : ResolveState) (src : ListSource) : ResolveState :=
  let bl := st.blacklist ++ src.removedA
  let added1 := st.added.filter (fun a => decide (a ∉ bl))
  let added2 := dedupExtend bl added1 src.addedA
  let locals := added2 ++ src.cacheA.filter (fun x => decide (x ∉ bl ∧ x ∉ added2))
  { blacklist := bl
    added := added2
    out := st.out ++ locals.filter (fun d => decide (d ∈ src.dirFiles)) }

/-- Model of associated_desktop_paths over the ordered list-file sources:
fold of resolveStep from the empty state. -/
def associated_desktop_paths (srcs : List ListSource) : ResolveState :=
  srcs.foldl resolveStep ⟨[], [], []⟩

section DictLemmas

variable {α β : Type} [DecidableEq α]

theorem dictGet_dictSet_self (l : List (α × β)) (k : α) (v : β) :
    dictGet (dictSet l k v) k = some v := by
  induction l with
  | nil => simp [dictSet, dictGet]
  | cons p t ih =>
    obtain ⟨k', v'⟩ := p
    by_cases h : k' = k
    · simp [dictSet, dictGet, h]
    · simp [dictSet, dictGet, h, ih]

theorem dictGet_dictSet_ne (l : List (α × β)) (k k' : α) (v : β) (h : k' ≠ k) :
    dictGet (dictSet l k v) k' = dictGet l k' := by
  induction l with
  | nil => simp [dictSet, dictGet, Ne.symm h]
  | cons p t ih =>
    obtain ⟨k₀, v₀⟩ := p
    by_cases h0 : k₀ = k
    · subst h0
      simp [dictSet, dictGet, Ne.symm h]
    · simp [dictSet, dictGet, h0, ih]

theorem dictSet_dictSet_self (l : List (α × β)) (k : α) (v w : β) :
    dictSet (dictSet l k v) k w = dictSet l k w := by
  induction l with
  | nil => simp [dictSet]
  | cons p t ih =>
    obtain ⟨k₀, v₀⟩ := p
    by_cases h0 : k₀ = k
    · simp [dictSet, h0]
    · simp [dictSet, h0, ih]

theorem dictGet_eq_none (l : List (α × β)) (k : α) :
    dictGet l k = none ↔ k ∉ dictKeys l := by
  induction l with
  | nil => simp [dictGet, dictKeys]
  | cons p t ih =>
    obtain ⟨k₀, v₀⟩ := p
    by_cases h0 : k₀ = k
    · simp [dictGet, dictKeys, h0]
    · simp [dictGet, dictKeys, h0, ih, Ne.symm h0]

theorem dictSet_of_none (l : List (α × β)) (k : α) (v : β) (h : dictGet l k = none) :
    dictSet l k v = l ++ [(k, v)] := by
  induction l with
  | nil => simp [dictSet]
  | cons p t ih =>
    obtain ⟨k₀, v₀⟩ := p
    by_cases h0 : k₀ = k
    · simp [dictGet, h0] at h
    · simp [dictGet, h0] at h
      simp [dictSet, h0, ih h]

theorem dictGet_append (l₁ l₂ : List (α × β)) (k : α) :
    dictGet (l₁ ++ l₂) k =
      (match dictGet l₁ k with
       | some v => some v
       | none => dictGet l₂ k) := by
  induction l₁ with
  | nil => simp [dictGet]
  | cons p t ih =>
    obtain ⟨k₀, v₀⟩ := p
    by_cases h0 : k₀ = k
    · simp [dictGet, h0]
    · simp [dictGet, h0, ih]

theorem dictGet_append_of_none (l₁ l₂ : List (α × β)) (k : α)
    (h : dictGet l₁ k = none) : dictGet (l₁ ++ l₂) k = dictGet l₂ k := by
  rw [dictGet_append, h]

theorem dictSet_append_of_none (l₁ l₂ : List (α × β)) (k : α) (v : β)
    (h : dictGet l₁ k = none) :
    dictSet (l₁ ++ l₂) k v = l₁ ++ dictSet l₂ k v := by
  induction l₁ with
  | nil => simp
  | cons p t ih =>
    obtain ⟨k₀, v₀⟩ := p
    by_cases h0 : k₀ = k
    · simp [dictGet, h0] at h
    · simp [dictGet, h0] at h
      simp [dictSet, h0, ih h]

theorem dictDel_concat_of_none (l : List (α × β)) (k : α) (v : β)
    (h : dictGet l k = none) : dictDel (l ++ [(k, v)]) k = l := by
  induction l with
  | nil => simp [dictDel]
  | cons p t ih =>
    obtain ⟨k₀, v₀⟩ := p
    by_cases h0 : k₀ = k
    · simp [dictGet, h0] at h
    · simp [dictGet, h0] at h
      simp [dictDel, h0, ih h]

theorem dictSet_ne_nil (l : List (α × β)) (k : α) (v : β) : dictSet l k v ≠ [] := by
  cases l with
  | nil => simp [dictSet]
  | cons p t =>
    obtain ⟨k₀, v₀⟩ := p
    by_cases h0 : k₀ = k <;> simp [dictSet, h0]

end DictLemmas

theorem tableGet_dictSet_self (t : STable) (s : Str) (es : List (Str × List Str)) (k : Str) :
    tableGet (dictSet t s es) s k = dictGet es k := by
  simp [tableGet, dictGet_dictSet_self]

theorem filter_ne_of_not_mem {v : Str} {l : List Str} (h : v ∉ l) :
    l.filter (fun x => decide (x ≠ v)) = l := by
  apply List.filter_eq_self.mpr
  intro a ha
  simp only [decide_eq_true_eq]
  intro hav
  exact h (hav ▸ ha)

theorem count_front_once (v : Str) (l : List Str) :
    (v :: l.filter (fun x => decide (x ≠ v))).count v = 1 := by
  rw [List.count_cons_self]
  have : (l.filter (fun x => decide (x ≠ v))).count v = 0 := by
    apply List.count_eq_zero.mpr
    intro hmem
    have := (List.mem_filter.mp hmem).2
    simp at this
  omega

theorem filter_ne_cons_self (v : Str) (l : List Str) :
    (v :: l.filter (fun x => decide (x ≠ v))).filter (fun x => decide (x ≠ v)) =
      l.filter (fun x => decide (x ≠ v)) := by
  rw [List.filter_cons]
  simp [List.filter_filter]

/-- Unfolding of add_association for truthy arguments: the value is moved to
the front of the present list (defaulting to empty), creating the key or the
section as needed. -/
theorem add_association_eq (t : STable) (s k v : Str)
    (hs : s ≠ []) (hk : k ≠ []) (hv : v ≠ []) :
    add_association t s k v =
      match dictGet t s with
      | some es =>
        dictSet t s (dictSet es k
          (v :: ((dictGet es k).getD []).filter (fun x => decide (x ≠ v))))
      | none => t ++ [(s, [(k, [v])])] := by
  unfold add_association
  simp only [hs, hk, hv, ne_eq, not_false_iff, and_self, if_true]
  cases hgs : dictGet t s with
  | some es =>
    cases hgk : dictGet es k with
    | some vs => simp [hgk]
    | none => simp [hgk]
  | none => rfl

/-- C5: adding the same non-empty section, key and value twice is the same
as adding once; after an add the value sits exactly once at the front of the
list, ahead of the surviving original elements in their original order. -/
theorem add_association_idempotent_front (t : STable) (s k v : Str)
    (hs : s ≠ []) (hk : k ≠ []) (hv : v ≠ []) :
    add_association (add_association t s k v) s k v = add_association t s k v ∧
    tableGet (add_association t s k v) s k =
      some (v :: ((tableGet t s k).getD []).filter (fun x => decide (x ≠ v))) ∧
    (v :: ((tableGet t s k).getD []).filter (fun x => decide (x ≠ v))).count v = 1 := by
  have hget : tableGet (add_association t s k v) s k =
      some (v :: ((tableGet t s k).getD []).filter (fun x => decide (x ≠ v))) := by
    rw [add_association_eq t s k v hs hk hv]
    cases hgs : dictGet t s with
    | some es =>
      rw [tableGet_dictSet_self, dictGet_dictSet_self]
      simp [tableGet, hgs]
    | none =>
      have h1 : dictGet (t ++ [(s, [(k, [v])])]) s = some [(k, [v])] := by
        rw [dictGet_append_of_none t _ s hgs]
        simp [dictGet]
      simp [tableGet, h1, dictGet, hgs]
  refine ⟨?_, hget, count_front_once v _⟩
  rw [add_association_eq t s k v hs hk hv]
  cases hgs : dictGet t s with
  | some es =>
    dsimp only
    rw [add_association_eq _ s k v hs hk hv, dictGet_dictSet_self]
    dsimp only
    rw [dictGet_dictSet_self]
    simp only [Option.getD_some]
    rw [filter_ne_cons_self, dictSet_dictSet_self, dictSet_dictSet_self]
  | none =>
    dsimp only
    rw [add_association_eq _ s k v hs hk hv]
    have h1 : dictGet (t ++ [(s, [(k, [v])])]) s = some [(k, [v])] := by
      rw [dictGet_append_of_none t _ s hgs]
      simp [dictGet]
    rw [h1]
    dsimp only
    have h2 : dictGet ([(k, [v])] : List (Str × List Str)) k = some [v] := by
      simp [dictGet]
    rw [h2]
    simp only [Option.getD_some]
    have h3 : ([v] : List Str).filter (fun x => decide (x ≠ v)) = [] := by simp
    rw [h3]
    have h4 : dictSet ([(k, [v])] : List (Str × List Str)) k [v] = [(k, [v])] := by
      simp [dictSet]
    rw [h4, dictSet_append_of_none t _ s _ hgs]
    simp [dictSet]

/-- Closed instance of C5 at a concrete table. -/
theorem add_association_idempotent_front_witness :
    (("S".toList : Str) ≠ [] ∧ ("k".toList : Str) ≠ [] ∧ ("b".toList : Str) ≠ []) ∧
    (add_association (add_association
        [("S".toList, [("k".toList, ["a".toList, "b".toList])])]
        "S".toList "k".toList "b".toList) "S".toList "k".toList "b".toList =
      add_association [("S".toList, [("k".toList, ["a".toList, "b".toList])])]
        "S".toList "k".toList "b".toList ∧
    tableGet (add_association [("S".toList, [("k".toList, ["a".toList, "b".toList])])]
        "S".toList "k".toList "b".toList) "S".toList "k".toList =
      some ("b".toList ::
        ((tableGet [("S".toList, [("k".toList, ["a".toList, "b".toList])])]
          "S".toList "k".toList).getD []).filter (fun x => decide (x ≠ "b".toList))) ∧
    ("b".toList ::
        ((tableGet [("S".toList, [("k".toList, ["a".toList, "b".toList])])]
          "S".toList "k".toList).getD []).filter
            (fun x => decide (x ≠ "b".toList))).count "b".toList = 1) :=
  ⟨⟨by decide, by decide, by decide⟩,
    add_association_idempotent_front _ _ _ _ (by decide) (by decide) (by decide)⟩

/-- C6 (amended): remove after add restores table[s][k] exactly, provided
the value is non-empty, was not already present, and the stored list (when
the key exists) is not empty. -/
theorem add_remove_association_roundtrip (t : STable) (s k v : Str)
    (hv : v ≠ []) (hmem : v ∉ (tableGet t s k).getD [])
    (hne : tableGet t s k ≠ some []) :
    tableGet (remove_association (add_association t s k v) s k (some v)) s k =
      tableGet t s k := by
  by_cases hs : s = []
  · simp [add_association, remove_association, hs]
  by_cases hk : k = []
  · simp [add_association, remove_association, hk]
  rw [add_association_eq t s k v hs hk hv]
  cases hgs : dictGet t s with
  | none =>
    dsimp only
    have h1 : dictGet (t ++ [(s, [(k, [v])])]) s = some [(k, [v])] := by
      rw [dictGet_append_of_none t _ s hgs]
      simp [dictGet]
    have hnil : (t ++ [(s, [(k, [v])])] : STable) ≠ [] := by simp
    unfold remove_association
    rw [if_pos ⟨hnil, hs, hk⟩, h1]
    dsimp only
    rw [if_neg hv]
    have h2 : dictGet ([(k, [v])] : List (Str × List Str)) k = some [v] := by
      simp [dictGet]
    rw [h2]
    dsimp only
    have h3 : removeFirst ([v] : List Str) v = some [] := by simp [removeFirst]
    rw [h3]
    dsimp only
    rw [if_pos rfl]
    have h4 : dictDel ([(k, [v])] : List (Str × List Str)) k = [] := by
      simp [dictDel]
    rw [h4, dictSet_append_of_none t _ s _ hgs]
    have h5 : dictSet ([(s, [(k, [v])])] : STable) s [] = [(s, [])] := by
      simp [dictSet]
    rw [h5]
    have h6 : dictGet (t ++ [(s, ([] : List (Str × List Str)))]) s = some [] := by
      rw [dictGet_append_of_none t _ s hgs]
      simp [dictGet]
    simp [tableGet, h6, dictGet, hgs]
  | some es =>
    dsimp only
    cases hgk : dictGet es k with
    | none =>
      simp only [Option.getD_none, List.filter_nil]
      rw [dictSet_of_none es k [v] hgk]
      have hES : dictGet (es ++ [(k, [v])]) k = some [v] := by
        rw [dictGet_append_of_none es _ k hgk]
        simp [dictGet]
      unfold remove_association
      rw [if_pos ⟨dictSet_ne_nil t s _, hs, hk⟩, dictGet_dictSet_self]
      dsimp only
      rw [if_neg hv, hES]
      dsimp only
      have h3 : removeFirst ([v] : List Str) v = some [] := by simp [removeFirst]
      rw [h3]
      dsimp only
      rw [if_pos rfl, dictDel_concat_of_none es k _ hgk, dictSet_dictSet_self]
      rw [tableGet_dictSet_self]
      simp [tableGet, hgs, hgk]
    | some vs =>
      simp only [Option.getD_some]
      have hvs : v ∉ vs := by
        simpa [tableGet, hgs, hgk] using hmem
      have hvsne : vs ≠ [] := by
        intro hcon
        exact hne (by simp [tableGet, hgs, hgk, hcon])
      rw [filter_ne_of_not_mem hvs]
      unfold remove_association
      rw [if_pos ⟨dictSet_ne_nil t s _, hs, hk⟩, dictGet_dictSet_self]
      dsimp only
      rw [if_neg hv, dictGet_dictSet_self]
      dsimp only
      have h3 : removeFirst (v :: vs) v = some vs := by simp [removeFirst]
      rw [h3]
      dsimp only
      rw [if_neg hvsne, dictSet_dictSet_self, dictSet_dictSet_self]
      rw [tableGet_dictSet_self, dictGet_dictSet_self]
      simp [tableGet, hgs, hgk]

/-- C6 counterexample: with the value already present, add then remove loses
the entry instead of restoring it. -/
theorem add_remove_association_cex :
    tableGet [("S".toList, [("k".toList, ["a".toList])])] "S".toList "k".toList =
      some ["a".toList] ∧
    tableGet (remove_association
      (add_association [("S".toList, [("k".toList, ["a".toList])])]
        "S".toList "k".toList "a".toList)
      "S".toList "k".toList (some "a".toList)) "S".toList "k".toList = none := by
  decide

/-- Closed instance of C6 at a concrete table. -/
theorem add_remove_association_roundtrip_witness :
    (("b".toList : Str) ≠ [] ∧
      "b".toList ∉ ((tableGet [("S".toList, [("k".toList, ["a".toList])])]
        "S".toList "k".toList).getD []) ∧
      tableGet [("S".toList, [("k".toList, ["a".toList])])] "S".toList "k".toList ≠
        some []) ∧
    tableGet (remove_association
      (add_association [("S".toList, [("k".toList, ["a".toList])])]
        "S".toList "k".toList "b".toList)
      "S".toList "k".toList (some "b".toList)) "S".toList "k".toList =
      tableGet [("S".toList, [("k".toList, ["a".toList])])] "S".toList "k".toList :=
  ⟨⟨by decide, by decide, by decide⟩,
    add_remove_association_roundtrip _ _ _ _ (by decide) (by decide) (by decide)⟩

/-- C2: with no placeholder in any wrapper word, the source yields only the
wrapper words and never appends the application command (the seen flag is
dead); interpolating the wrapper xterm -e with the command vim notes.txt
produces just the wrapper words, which differ from the appended form the
specification describes. -/
theorem interpolate_term_cmd_no_placeholder_drops_cmd :
    interpolate_term_cmd "xterm -e".toList ["vim".toList, "notes.txt".toList] =
      Except.ok ["xterm".toList, "-e".toList] ∧
    (["xterm".toList, "-e".toList] : List Str) ≠
      ["xterm".toList, "-e".toList, "vim".toList, "notes.txt".toList] :=
  ⟨rfl, by decide⟩

/-- C3: quoting the word containing a dollar sign emits the literal
backslash-c pair instead of a backslash followed by the escaped character,
so the written Exec value differs from the escaping the specification
describes. -/
theorem exec_quote_word_literal_c :
    exec_quote_word "a$b".toList = "\"a\\cb\"".toList ∧
    exec_quote_word "a$b".toList ≠ "\"a\\$b\"".toList ∧
    create_desktop_entry_exec ["a$b".toList] = "\"a\\cb\"".toList :=
  ⟨rfl, by decide, rfl⟩

theorem splitOnceOn_eq_none_iff (sep : Char) (s : Str) :
    splitOnceOn sep s = none ↔ sep ∉ s := by
  induction s with
  | nil => simp [splitOnceOn]
  | cons c t ih =>
    by_cases hc : c = sep
    · subst hc
      simp [splitOnceOn]
    · cases hsp : splitOnceOn sep t with
      | none =>
        simp only [splitOnceOn, if_neg hc, hsp]
        simp [Ne.symm hc, ih.mp hsp]
      | some p =>
        simp only [splitOnceOn, if_neg hc, hsp]
        have : sep ∈ t := by
          by_contra hmem
          rw [ih.mpr hmem] at hsp
          exact Option.noConfusion hsp
        simp [this]

theorem splitOnceOn_mem (sep : Char) (s : Str) (h : sep ∈ s) :
    ∃ b, splitOnceOn sep s = some (s.takeWhile (fun c => decide (c ≠ sep)), b) := by
  induction s with
  | nil => cases h
  | cons c t ih =>
    by_cases hc : c = sep
    · subst hc
      refine ⟨t, ?_⟩
      simp [splitOnceOn, List.takeWhile]
    · have hmem : sep ∈ t := by
        cases h with
        | head => exact absurd rfl hc
        | tail _ h => exact h
      obtain ⟨b, hb⟩ := ih hmem
      refine ⟨b, ?_⟩
      simp [splitOnceOn, if_neg hc, hb, List.takeWhile, hc]

/-- C9: parse_mimetype succeeds exactly on strings containing a slash, with
the substring before the first slash as top-level type, and raises
ValueError otherwise, so strip_mimetype (and through it MIME-type to
desktop resolution, which strips first) fails on slash-free input. -/
theorem parse_mimetype_requires_slash (m : Str) :
    ('/' ∈ m → ∃ r, parse_mimetype m = Except.ok r ∧
      r.1 = m.takeWhile (fun c => decide (c ≠ '/'))) ∧
    ('/' ∉ m →
      parse_mimetype m = Except.error () ∧ strip_mimetype m = Except.error ()) := by
  constructor
  · intro h
    obtain ⟨b, hb⟩ := splitOnceOn_mem '/' m h
    unfold parse_mimetype
    rw [hb]
    exact ⟨_, rfl, rfl⟩
  · intro h
    have hs : splitOnceOn '/' m = none := (splitOnceOn_eq_none_iff '/' m).mpr h
    constructor
    · unfold parse_mimetype
      rw [hs]
    · unfold strip_mimetype parse_mimetype
      rw [hs]

/-- Closed instance of C9: a slashed string parses with the expected
top-level type, a slash-free string fails to parse and to strip. -/
theorem parse_mimetype_requires_slash_witness :
    ('/' ∈ "text/plain".toList ∧
      (∃ r, parse_mimetype "text/plain".toList = Except.ok r ∧
        r.1 = "text/plain".toList.takeWhile (fun c => decide (c ≠ '/')))) ∧
    ('/' ∉ "noslash".toList ∧
      (parse_mimetype "noslash".toList = Except.error () ∧
        strip_mimetype "noslash".toList = Except.error ())) :=
  ⟨⟨by decide, (parse_mimetype_requires_slash "text/plain".toList).1 (by decide)⟩,
    ⟨by decide, (parse_mimetype_requires_slash "noslash".toList).2 (by decide)⟩⟩

/-- C8: command construction reports the fatal validation error exactly when
the template, with literal double percents discounted, mentions more than
one distinct code among f, u, F and U; with at most one code the result is
never the validation error (though ill-quoted templates fail word
splitting with the distinct shlex ValueError). -/
theorem exec_validation_error_iff (ep : Str → Option Str) (eu : Str → Str)
    (exe : Str) (args : List Str) (name icon path : Str) :
    exec_field_to_cmds_without_term ep eu exe args name icon path =
        Except.error ExecErr.validation ↔ 1 < (exec_field_codes exe).length := by
  simp only [exec_field_to_cmds_without_term]
  by_cases h : 1 < (exec_field_codes exe).length
  · simp [h]
  · simp only [h, if_false]
    cases hsp : pyShlexSplit exe with
    | error e => simp [h]
    | ok words => simp [h]

/-- C7 (amended): with f or u as the only field code and at least one
argument, interpolation yields one command vector per argument, the i-th
built from the i-th argument alone; with F or U as the only code it yields
exactly one vector built from all arguments, and that vector contains every
argument whenever the template holds the code as a standalone word and each
argument resolves to itself as a path. -/
theorem exec_field_to_cmds_singular_plural (ep : Str → Option Str) (eu : Str → Str)
    (exe : Str) (args : List Str) (name icon path : Str) (words : List Str) :
    ((exec_field_codes exe = ['f'] ∨ exec_field_codes exe = ['u']) → args ≠ [] →
      pyShlexSplit exe = Except.ok words →
      exec_field_to_cmds_without_term ep eu exe args name icon path =
        Except.ok (args.map (fun a =>
          words.flatMap (fun w => parse_field_codes ep eu w name [a] icon path false)))) ∧
    ((exec_field_codes exe = ['F'] ∨ exec_field_codes exe = ['U']) →
      pyShlexSplit exe = Except.ok words →
      exec_field_to_cmds_without_term ep eu exe args name icon path =
        Except.ok [words.flatMap
          (fun w => parse_field_codes ep eu w name args icon path false)] ∧
      (['%', 'F'] ∈ words → (∀ a ∈ args, ep a = some a) → ∀ a ∈ args,
        a ∈ words.flatMap
          (fun w => parse_field_codes ep eu w name args icon path false))) := by
  constructor
  · intro hc hargs hsp
    simp only [exec_field_to_cmds_without_term]
    rcases hc with hc | hc <;>
      simp [hc, hsp, hargs, List.map_map, Function.comp]
  · intro hc hsp
    constructor
    · simp only [exec_field_to_cmds_without_term]
      by_cases hargs : args = [] <;>
        rcases hc with hc | hc <;>
          simp [hc, hsp, hargs]
    · intro hwF hepa a ha
      refine List.mem_flatMap.mpr ⟨['%', 'F'], hwF, ?_⟩
      have : parse_field_codes ep eu ['%', 'F'] name args icon path false =
          args.filterMap ep := by
        simp [parse_field_codes]
      rw [this]
      exact List.mem_filterMap.mpr ⟨a, ha, hepa a ha⟩

/-- C7 counterexample: the template app --x=%F with two plain-path arguments
yields a single vector that contains neither argument, because a field code
embedded in a larger word is dropped by the word scan. -/
theorem exec_field_embedded_F_cex :
    exec_field_to_cmds_without_term (fun s => some s) (fun s => s)
      "app --x=%F".toList ["x.txt".toList, "y.txt".toList] "N".toList [] [] =
      Except.ok [["app".toList, "--x=".toList]] ∧
    "x.txt".toList ∉ (["app".toList, "--x=".toList] : List Str) :=
  ⟨rfl, by decide⟩

/-- Closed instance of C7 at concrete templates for both the singular and
the plural half. -/
theorem exec_field_to_cmds_singular_plural_witness :
    (exec_field_codes "app %f".toList = ['f'] ∧
      exec_field_to_cmds_without_term (fun s => some s) (fun s => s)
        "app %f".toList ["x".toList, "y".toList] "N".toList [] [] =
        Except.ok (["x".toList, "y".toList].map (fun a =>
          ["app".toList, "%f".toList].flatMap
            (fun w => parse_field_codes (fun s => some s) (fun s => s)
              w "N".toList [a] [] [] false)))) ∧
    (exec_field_codes "app %F".toList = ['F'] ∧
      exec_field_to_cmds_without_term (fun s => some s) (fun s => s)
        "app %F".toList ["x".toList, "y".toList] "N".toList [] [] =
        Except.ok [["app".toList, "%F".toList].flatMap
          (fun w => parse_field_codes (fun s => some s) (fun s => s)
            w "N".toList ["x".toList, "y".toList] [] [] false)] ∧
      "x".toList ∈ ["app".toList, "%F".toList].flatMap
        (fun w => parse_field_codes (fun s => some s) (fun s => s)
          w "N".toList ["x".toList, "y".toList] [] [] false)) :=
  ⟨⟨by decide,
    (exec_field_to_cmds_singular_plural (fun s => some s) (fun s => s)
      "app %f".toList ["x".toList, "y".toList] "N".toList [] []
      ["app".toList, "%f".toList]).1 (Or.inl (by decide)) (by decide) rfl⟩,
   ⟨by decide,
    ((exec_field_to_cmds_singular_plural (fun s => some s) (fun s => s)
      "app %F".toList ["x".toList, "y".toList] "N".toList [] []
      ["app".toList, "%F".toList]).2 (Or.inl (by decide)) rfl).1,
    ((exec_field_to_cmds_singular_plural (fun s => some s) (fun s => s)
      "app %F".toList ["x".toList, "y".toList] "N".toList [] []
      ["app".toList, "%F".toList]).2 (Or.inl (by decide)) rfl).2
      (by decide) (by decide) "x".toList (by decide)⟩⟩

theorem mem_blacklist_step (st : ResolveState) (src : ListSource) (d : Str)
    (h : d ∈ st.blacklist ∨ d ∈ src.removedA) :
    d ∈ (resolveStep st src).blacklist := by
  simp only [resolveStep, List.mem_append]
  exact h

theorem dedupExtend_not_mem (bl : List Str) (new : List Str) (d : Str)
    (hbl : d ∈ bl) :
    ∀ base, d ∉ base → d ∉ dedupExtend bl base new := by
  induction new with
  | nil =>
    intro base hbase
    simpa [dedupExtend] using hbase
  | cons a t ih =>
    intro base hbase
    have hstep : dedupExtend bl base (a :: t) =
        dedupExtend bl (if a ∉ bl ∧ a ∉ base then base ++ [a] else base) t := rfl
    rw [hstep]
    apply ih
    by_cases hc : a ∉ bl ∧ a ∉ base
    · rw [if_pos hc]
      intro hmem
      rcases List.mem_append.mp hmem with hmem | hmem
      · exact hbase hmem
      · have : d = a := by simpa using hmem
        exact hc.1 (this ▸ hbl)
    · rw [if_neg hc]
      exact hbase

theorem step_blacklist_not_added (st : ResolveState) (src : ListSource) (d : Str)
    (h : d ∈ (resolveStep st src).blacklist) :
    d ∉ (resolveStep st src).added := by
  have hbl : d ∈ st.blacklist ++ src.removedA := h
  apply dedupExtend_not_mem _ _ _ hbl
  intro hmem
  have := (List.mem_filter.mp hmem).2
  rw [decide_eq_true_eq] at this
  exact this hbl

theorem resolve_fold_preserves (l : List ListSource) (d : Str) :
    ∀ st : ResolveState, d ∈ st.blacklist → d ∉ st.added →
    d ∈ (l.foldl resolveStep st).blacklist ∧ d ∉ (l.foldl resolveStep st).added := by
  induction l with
  | nil =>
    intro st h1 h2
    exact ⟨h1, h2⟩
  | cons src t ih =>
    intro st h1 h2
    rw [List.foldl_cons]
    have hbl : d ∈ (resolveStep st src).blacklist := mem_blacklist_step _ _ _ (Or.inl h1)
    exact ih _ hbl (step_blacklist_not_added _ _ _ hbl)

theorem removed_anywhere_excluded (pre rest : List ListSource) (src : ListSource)
    (d : Str) (h : d ∈ src.removedA) :
    d ∉ (associated_desktop_paths (pre ++ src :: rest)).added := by
  unfold associated_desktop_paths
  rw [List.foldl_append, List.foldl_cons]
  have hbl : d ∈ (resolveStep (pre.foldl resolveStep ⟨[], [], []⟩) src).blacklist :=
    mem_blacklist_step _ _ _ (Or.inr h)
  exact (resolve_fold_preserves rest d _ hbl (step_blacklist_not_added _ _ _ hbl)).2

/-- C1: a desktop identifier added by an earlier-precedence source and
removed by a later one is excluded from the final candidate list, and so is
one removed earlier and re-added later, because the blacklist accumulated
over the forward pass is never cleared and the candidate list is filtered
against it after every source. -/
theorem resolver_blacklist_monotone_excludes (pre mid post : List ListSource)
    (s1 s2 : ListSource) (d : Str)
    (h : (d ∈ s1.addedA ∧ d ∈ s2.removedA) ∨ (d ∈ s1.removedA ∧ d ∈ s2.addedA)) :
    d ∉ (associated_desktop_paths (pre ++ s1 :: mid ++ s2 :: post)).added := by
  rcases h with ⟨_, h2⟩ | ⟨h1, _⟩
  · have heq : pre ++ s1 :: mid ++ s2 :: post = (pre ++ s1 :: mid) ++ s2 :: post := by
      simp
    rw [heq]
    exact removed_anywhere_excluded _ _ _ _ h2
  · have heq : pre ++ s1 :: mid ++ s2 :: post = pre ++ s1 :: (mid ++ s2 :: post) := by
      simp
    rw [heq]
    exact removed_anywhere_excluded pre (mid ++ s2 :: post) s1 d h1

/-- Closed instance of C1: one source adding the identifier, a later one
removing it, and the symmetric pair. -/
theorem resolver_blacklist_monotone_excludes_witness :
    (("e.desktop".toList ∈ (ListSource.mk [] ["e.desktop".toList] [] []).addedA ∧
      "e.desktop".toList ∈ (ListSource.mk ["e.desktop".toList] [] [] []).removedA) ∧
     "e.desktop".toList ∉ (associated_desktop_paths
       [ListSource.mk [] ["e.desktop".toList] [] [],
        ListSource.mk ["e.desktop".toList] [] [] []]).added) ∧
    (("e.desktop".toList ∈ (ListSource.mk ["e.desktop".toList] [] [] []).removedA ∧
      "e.desktop".toList ∈ (ListSource.mk [] ["e.desktop".toList] [] []).addedA) ∧
     "e.desktop".toList ∉ (associated_desktop_paths
       [ListSource.mk ["e.desktop".toList] [] [] [],
        ListSource.mk [] ["e.desktop".toList] [] []]).added) :=
  ⟨⟨⟨by decide, by decide⟩,
    resolver_blacklist_monotone_excludes [] [] []
      (ListSource.mk [] ["e.desktop".toList] [] [])
      (ListSource.mk ["e.desktop".toList] [] [] [])
      "e.desktop".toList (Or.inl ⟨by decide, by decide⟩)⟩,
   ⟨⟨by decide, by decide⟩,
    resolver_blacklist_monotone_excludes [] [] []
      (ListSource.mk ["e.desktop".toList] [] [] [])
      (ListSource.mk [] ["e.desktop".toList] [] [])
      "e.desktop".toList (Or.inr ⟨by decide, by decide⟩)⟩⟩

theorem tableGet_tableAssign {α : Type} [DecidableEq α]
    (t : List (α × List (Str × List Str))) (σ σ' : α) (k k' : Str) (v : List Str) :
    tableGet (tableAssign t σ k v) σ' k' =
      if σ = σ' ∧ k = k' then some v else tableGet t σ' k' := by
  induction t with
  | nil =>
    by_cases h1 : σ = σ'
    · subst h1
      by_cases h2 : k = k'
      · subst h2
        simp [tableAssign, tableGet, dictGet]
      · simp [tableAssign, tableGet, dictGet, h2]
    · simp [tableAssign, tableGet, dictGet, h1]
  | cons p t ih =>
    obtain ⟨s₀, es⟩ := p
    by_cases h0 : s₀ = σ
    · subst h0
      by_cases h1 : s₀ = σ'
      · subst h1
        by_cases h2 : k = k'
        · subst h2
          simp [tableAssign, tableGet, dictGet, dictGet_dictSet_self]
        · simp [tableAssign, tableGet, dictGet, h2,
            dictGet_dictSet_ne es k k' v (Ne.symm h2)]
      · simp [tableAssign, tableGet, dictGet, h1]
    · by_cases h1 : s₀ = σ'
      · subst h1
        simp [tableAssign, tableGet, dictGet, h0, Ne.symm h0,
          fun hc : σ = s₀ => h0 hc.symm]
      · simp only [tableAssign, if_neg h0]
        simp only [tableGet, dictGet, if_neg h1]
        simpa [tableGet] using ih

theorem dictKeys_tableAssign {α : Type} [DecidableEq α]
    (t : List (α × List (Str × List Str))) (σ : α) (k : Str) (v : List Str) :
    dictKeys (tableAssign t σ k v) =
      if σ ∈ dictKeys t then dictKeys t else dictKeys t ++ [σ] := by
  induction t with
  | nil => simp [tableAssign, dictKeys]
  | cons p t ih =>
    obtain ⟨s₀, es⟩ := p
    by_cases h0 : s₀ = σ
    · subst h0
      simp [tableAssign, dictKeys]
    · simp only [tableAssign, if_neg h0, dictKeys, List.map_cons]
      rw [dictKeys] at ih
      rw [ih]
      by_cases hmem : σ ∈ t.map Prod.fst
      · simp [dictKeys, hmem, Ne.symm h0]
      · simp [dictKeys, hmem, Ne.symm h0]

theorem tableAssign_keys_nodup {α : Type} [DecidableEq α]
    (t : List (α × List (Str × List Str))) (σ : α) (k : Str) (v : List Str)
    (h : (dictKeys t).Nodup) : (dictKeys (tableAssign t σ k v)).Nodup := by
  rw [dictKeys_tableAssign]
  by_cases hmem : σ ∈ dictKeys t
  · simpa [hmem]
  · simp [hmem, List.nodup_append, h]

theorem parse_fold_tracks_cell (s k : Str) (lines : List Str) :
    ∀ st : Option Str × PTable,
      (List.foldl parseAssocStep st lines).1 =
        (List.foldl (lastValStep s k) (st.1, tableGet st.2 (some s) k) lines).1 ∧
      tableGet (List.foldl parseAssocStep st lines).2 (some s) k =
        (List.foldl (lastValStep s k) (st.1, tableGet st.2 (some s) k) lines).2 := by
  induction lines with
  | nil =>
    intro st
    exact ⟨rfl, rfl⟩
  | cons line ls ih =>
    intro st
    obtain ⟨sec, acc⟩ := st
    rw [List.foldl_cons, List.foldl_cons]
    have hfst : (parseAssocStep (sec, acc) line).1 =
        (lastValStep s k (sec, tableGet acc (some s) k) line).1 := by
      unfold parseAssocStep lastValStep
      cases hstrip : pyStrip line with
      | nil => rfl
      | cons c t =>
        by_cases hch : c = '#'
        · simp [hch]
        · by_cases hdr : c = '[' ∧ (c :: t).getLast? = some ']'
          · obtain ⟨hc1, hc2⟩ := hdr
            subst hc1
            simp [hc2]
          · simp only [if_neg hch, if_neg hdr]
            cases hsp : splitOnceOn '=' (c :: t) with
            | none => rfl
            | some p =>
              obtain ⟨km, rest⟩ := p
              dsimp only
              by_cases hds : parseValues rest = []
              · simp [hds]
              · simp only [if_neg hds]
                by_cases hcell : sec = some s ∧ pyRstrip km = k
                · simp [hcell]
                · simp [hcell]
    have hsnd : tableGet (parseAssocStep (sec, acc) line).2 (some s) k =
        (lastValStep s k (sec, tableGet acc (some s) k) line).2 := by
      unfold parseAssocStep lastValStep
      cases hstrip : pyStrip line with
      | nil => rfl
      | cons c t =>
        by_cases hch : c = '#'
        · simp [hch]
        · by_cases hdr : c = '[' ∧ (c :: t).getLast? = some ']'
          · obtain ⟨hc1, hc2⟩ := hdr
            subst hc1
            simp [hc2]
          · simp only [if_neg hch, if_neg hdr]
            cases hsp : splitOnceOn '=' (c :: t) with
            | none => rfl
            | some p =>
              obtain ⟨km, rest⟩ := p
              dsimp only
              by_cases hds : parseValues rest = []
              · simp [hds]
              · simp only [if_neg hds]
                by_cases hcell : sec = some s ∧ pyRstrip km = k
                · simp only [if_pos hcell]
                  rw [tableGet_tableAssign]
                  simp [hcell.1, hcell.2]
                · simp only [if_neg hcell]
                  rw [tableGet_tableAssign]
                  simp [hcell]
    have hpair : ((parseAssocStep (sec, acc) line).1,
        tableGet (parseAssocStep (sec, acc) line).2 (some s) k) =
        lastValStep s k (sec, tableGet acc (some s) k) line := by
      rw [hfst, hsnd]
    have hrec := ih (parseAssocStep (sec, acc) line)
    rw [hpair] at hrec
    exact hrec

theorem parse_fold_keys_nodup (lines : List Str) :
    ∀ (sec : Option Str) (acc : PTable), (dictKeys acc).Nodup →
      (dictKeys (List.foldl parseAssocStep (sec, acc) lines).2).Nodup := by
  induction lines with
  | nil =>
    intro sec acc h
    exact h
  | cons line ls ih =>
    intro sec acc h
    rw [List.foldl_cons]
    have hkeys : (dictKeys (parseAssocStep (sec, acc) line).2).Nodup := by
      unfold parseAssocStep
      cases hstrip : pyStrip line with
      | nil => exact h
      | cons c t =>
        by_cases hch : c = '#'
        · simpa [hch]
        · by_cases hdr : c = '[' ∧ (c :: t).getLast? = some ']'
          · obtain ⟨hc1, hc2⟩ := hdr
            subst hc1
            simpa [hc2]
          · simp only [if_neg hch, if_neg hdr]
            cases hsp : splitOnceOn '=' (c :: t) with
            | none => exact h
            | some p =>
              obtain ⟨km, rest⟩ := p
              dsimp only
              by_cases hds : parseValues rest = []
              · simpa [hds]
              · simp only [if_neg hds]
                exact tableAssign_keys_nodup _ _ _ _ h
    have := ih (parseAssocStep (sec, acc) line).1 (parseAssocStep (sec, acc) line).2 hkeys
    simpa using this

/-- C10: loading an association file maps each section name and key to
exactly the value list of the last entry line for that pair with at least
one non-empty raw value, earlier lines being discarded whole, while repeated
headers of one section merge into a single table section (section names in
the parsed table are free of duplicates). -/
theorem parse_associations_last_assignment_wins (lines : List Str) (s k : Str) :
    tableGet (parse_associations lines) (some s) k = lastEntryValues s k lines ∧
    (dictKeys (parse_associations lines)).Nodup := by
  constructor
  · have := (parse_fold_tracks_cell s k lines (none, [])).2
    simpa [parse_associations, lastEntryValues, tableGet, dictGet] using this
  · exact parse_fold_keys_nodup lines none [] (by simp [dictKeys])

theorem dropWhile_length_le {α : Type} (p : α → Bool) (l : List α) :
    (l.dropWhile p).length ≤ l.length := by
  induction l with
  | nil => simp
  | cons c t ih =>
    by_cases h : p c
    · simp only [List.dropWhile_cons, if_pos h, List.length_cons]
      omega
    · simp [List.dropWhile_cons, h]

theorem head_not_space_of_lstrip (c : Char) (t : Str)
    (h : pyLstrip (c :: t) = c :: t) : pySpace c = false := by
  by_contra hc
  have hc' : pySpace c = true := by
    cases hcc : pySpace c with
    | true => rfl
    | false => exact absurd hcc hc
  rw [pyLstrip, List.dropWhile_cons, if_pos hc'] at h
  have hlen := congrArg List.length h
  have := dropWhile_length_le pySpace t
  simp at hlen
  omega

theorem pyLstrip_cons_of_not_space (c : Char) (t : Str) (h : pySpace c = false) :
    pyLstrip (c :: t) = c :: t := by
  simp [pyLstrip, List.dropWhile_cons, h]

theorem pyRstrip_concat_of_not_space (l : Str) (d : Char) (h : pySpace d = false) :
    pyRstrip (l ++ [d]) = l ++ [d] := by
  simp [pyRstrip, List.dropWhile_cons, h]

theorem pyStrip_of_boundary (c d : Char) (mid : Str)
    (hc : pySpace c = false) (hd : pySpace d = false) :
    pyStrip (c :: (mid ++ [d])) = c :: (mid ++ [d]) := by
  rw [pyStrip, pyLstrip_cons_of_not_space c _ hc]
  have heq : c :: (mid ++ [d]) = (c :: mid) ++ [d] := by simp
  rw [heq, pyRstrip_concat_of_not_space _ d hd]

theorem mem_joinOn (sep c : Char) (vs : List Str) (h : c ∈ joinOn sep vs) :
    c = sep ∨ ∃ v ∈ vs, c ∈ v := by
  induction vs with
  | nil => simp [joinOn] at h
  | cons v t ih =>
    cases t with
    | nil => exact Or.inr ⟨v, by simp, by simpa [joinOn] using h⟩
    | cons w u =>
      have heq : joinOn sep (v :: w :: u) = v ++ sep :: joinOn sep (w :: u) := rfl
      rw [heq] at h
      rcases List.mem_append.mp h with hc | hc
      · exact Or.inr ⟨v, by simp, hc⟩
      · cases hc with
        | head => exact Or.inl rfl
        | tail _ hc =>
          rcases ih hc with hc | ⟨x, hx, hcx⟩
          · exact Or.inl hc
          · exact Or.inr ⟨x, List.mem_cons_of_mem _ hx, hcx⟩

theorem splitOnceOn_append_first (sep : Char) (a b : Str) (h : sep ∉ a) :
    splitOnceOn sep (a ++ sep :: b) = some (a, b) := by
  induction a with
  | nil => simp [splitOnceOn]
  | cons c t ih =>
    have hc : c ≠ sep := fun hcc => h (hcc ▸ List.mem_cons_self c t)
    have ht : sep ∉ t := fun hm => h (List.mem_cons_of_mem _ hm)
    simp [splitOnceOn, hc, ih ht]

theorem splitAllOn_append_first (sep : Char) (a r : Str) (h : sep ∉ a) :
    splitAllOn sep (a ++ sep :: r) = a :: splitAllOn sep r := by
  induction a with
  | nil => simp [splitAllOn]
  | cons c t ih =>
    have hc : c ≠ sep := fun hcc => h (hcc ▸ List.mem_cons_self c t)
    have ht : sep ∉ t := fun hm => h (List.mem_cons_of_mem _ hm)
    simp [splitAllOn, hc, ih ht]

theorem splitAllOn_joinOn (vs : List Str) (hne : vs ≠ [])
    (h : ∀ v ∈ vs, ';' ∉ v) :
    splitAllOn ';' (joinOn ';' vs ++ [';']) = vs ++ [[]] := by
  induction vs with
  | nil => exact absurd rfl hne
  | cons v t ih =>
    cases t with
    | nil =>
      have heq : joinOn ';' [v] ++ [';'] = v ++ ';' :: [] := by simp [joinOn]
      rw [heq, splitAllOn_append_first ';' v [] (h v (by simp))]
      simp [splitAllOn]
    | cons w u =>
      have heq : joinOn ';' (v :: w :: u) ++ [';'] =
          v ++ ';' :: (joinOn ';' (w :: u) ++ [';']) := by
        have : joinOn ';' (v :: w :: u) = v ++ ';' :: joinOn ';' (w :: u) := rfl
        rw [this]
        simp
      rw [heq, splitAllOn_append_first ';' v _ (h v (by simp))]
      rw [ih (by simp) (fun x hx => h x (List.mem_cons_of_mem _ hx))]
      simp

theorem pyBasename_eq_self (v : Str) (h : '/' ∉ v) : pyBasename v = v := by
  have hrev : '/' ∉ v.reverse := fun hm => h (List.mem_reverse.mp hm)
  have hnone : splitOnceOn '/' v.reverse = none :=
    (splitOnceOn_eq_none_iff '/' v.reverse).mpr hrev
  simp [pyBasename, rsplitOnceOn, hnone]

theorem parseValues_of_clean (vs : List Str) (hne : vs ≠ [])
    (h : ∀ v ∈ vs, CleanValue v) :
    parseValues (joinOn ';' vs ++ [';']) = vs := by
  unfold parseValues
  rw [splitAllOn_joinOn vs hne (fun v hv => (h v hv).2.2.2.2.1)]
  have hfilter : (vs ++ [[]]).filter (fun d => decide (d ≠ [])) = vs := by
    rw [List.filter_append]
    have h1 : vs.filter (fun d => decide (d ≠ [])) = vs :=
      List.filter_eq_self.mpr (fun v hv => by simp [(h v hv).1])
    have h2 : ([[]] : List Str).filter (fun d => decide (d ≠ [])) = [] := by simp
    rw [h1, h2, List.append_nil]
  rw [hfilter]
  have hmap : vs.map (fun d => pyBasename (pyStrip d)) = vs.map id := by
    apply List.map_congr_left
    intro v hv
    obtain ⟨_, hstrip, _, _, _, hslash⟩ := h v hv
    simp [hstrip, pyBasename_eq_self v hslash]
  rw [hmap, List.map_id]

theorem insertEntryS_perm (x : Str × List Str) (l : List (Str × List Str)) :
    (insertEntryS x l).Perm (x :: l) := by
  induction l with
  | nil => exact List.Perm.refl _
  | cons y t ih =>
    by_cases h : strLt x.1 y.1
    · simp [insertEntryS, h]
    · simp only [insertEntryS, if_neg h]
      exact (ih.cons y).trans (List.Perm.swap x y t)

theorem sortEntries_perm (es : List (Str × List Str)) :
    (sortEntries es).Perm es := by
  induction es with
  | nil => exact List.Perm.refl _
  | cons e t ih =>
    have : sortEntries (e :: t) = insertEntryS e (sortEntries t) := rfl
    rw [this]
    exact (insertEntryS_perm e (sortEntries t)).trans (ih.cons e)

theorem parseAssocStep_entry (sec : Option Str) (acc : PTable) (k : Str)
    (vs : List Str) (hk : CleanKey k) (hvs : ∀ v ∈ vs, CleanValue v)
    (hne : vs ≠ []) :
    parseAssocStep (sec, acc) (k ++ '=' :: joinOn ';' vs ++ [';']) =
      (sec, tableAssign acc sec k vs) := by
  obtain ⟨hk0, hkl, hkr, hkn, hkrr, hkeq, hkh⟩ := hk
  obtain ⟨kc, kt, rfl⟩ : ∃ c t, k = c :: t := by
    cases k with
    | nil => exact absurd rfl hk0
    | cons c t => exact ⟨c, t, rfl⟩
  have hcs : pySpace kc = false := head_not_space_of_lstrip kc kt hkl
  have hline : (kc :: kt) ++ '=' :: joinOn ';' vs ++ [';'] =
      kc :: ((kt ++ '=' :: joinOn ';' vs) ++ [';']) := by simp
  rw [hline]
  have hstrip : pyStrip (kc :: ((kt ++ '=' :: joinOn ';' vs) ++ [';'])) =
      kc :: ((kt ++ '=' :: joinOn ';' vs) ++ [';']) :=
    pyStrip_of_boundary kc ';' _ hcs (by decide)
  unfold parseAssocStep
  rw [hstrip]
  dsimp only
  have hch : ¬kc = '#' := by
    intro hcc
    exact hkh (by simp [hcc])
  rw [if_neg hch]
  have hdr : ¬(kc = '[' ∧
      (kc :: ((kt ++ '=' :: joinOn ';' vs) ++ [';'])).getLast? = some ']') := by
    rintro ⟨-, hlast⟩
    rw [show kc :: ((kt ++ '=' :: joinOn ';' vs) ++ [';']) =
        (kc :: (kt ++ '=' :: joinOn ';' vs)) ++ [';'] by simp,
      List.getLast?_concat] at hlast
    simp at hlast
  rw [if_neg hdr]
  have hsp : splitOnceOn '=' (kc :: ((kt ++ '=' :: joinOn ';' vs) ++ [';'])) =
      some (kc :: kt, joinOn ';' vs ++ [';']) := by
    rw [show kc :: ((kt ++ '=' :: joinOn ';' vs) ++ [';']) =
        (kc :: kt) ++ '=' :: (joinOn ';' vs ++ [';']) by simp]
    exact splitOnceOn_append_first '=' _ _ hkeq
  rw [hsp]
  simp [parseValues_of_clean vs hne hvs, hkr, hne]

theorem parseAssocStep_header (sec : Option Str) (acc : PTable) (s : Str) :
    parseAssocStep (sec, acc) ('[' :: (s ++ [']'])) = (some s, acc) := by
  have hstrip : pyStrip ('[' :: (s ++ [']'])) = '[' :: (s ++ [']']) :=
    pyStrip_of_boundary '[' ']' s (by decide) (by decide)
  have hlast : ('[' :: (s ++ [']'])).getLast? = some ']' := by
    rw [show ('[' :: (s ++ [']'])) = (('[' :: s) ++ [']']) by simp]
    exact List.getLast?_concat _
  unfold parseAssocStep
  rw [hstrip]
  dsimp only
  have hch : ¬('[' : Char) = '#' := by decide
  rw [if_neg hch, if_pos ⟨rfl, hlast⟩]
  simp [List.dropLast_concat]

theorem tableAssign_absent {α : Type} [DecidableEq α]
    (t : List (α × List (Str × List Str))) (σ : α) (k : Str) (v : List Str)
    (h : σ ∉ dictKeys t) : tableAssign t σ k v = t ++ [(σ, [(k, v)])] := by
  induction t with
  | nil => simp [tableAssign]
  | cons p t ih =>
    obtain ⟨s₀, es⟩ := p
    simp only [dictKeys, List.map_cons, List.mem_cons, not_or] at h
    obtain ⟨hne, h2⟩ := h
    simp [tableAssign, Ne.symm hne, ih h2]

theorem tableAssign_concat {α : Type} [DecidableEq α]
    (acc : List (α × List (Str × List Str))) (σ : α)
    (es : List (Str × List Str)) (k : Str) (v : List Str)
    (h : σ ∉ dictKeys acc) :
    tableAssign (acc ++ [(σ, es)]) σ k v = acc ++ [(σ, dictSet es k v)] := by
  induction acc with
  | nil => simp [tableAssign]
  | cons p t ih =>
    obtain ⟨s₀, es₀⟩ := p
    simp only [dictKeys, List.map_cons, List.mem_cons, not_or] at h
    obtain ⟨hne, h2⟩ := h
    simp [tableAssign, Ne.symm hne, ih h2]

theorem parse_entries_fold (s : Str) (ents : List (Str × List Str)) :
    ∀ (acc : PTable) (es₀ : List (Str × List Str)),
      (some s : Option Str) ∉ dictKeys acc →
      (∀ kv ∈ ents, CleanKey kv.1 ∧ (∀ v ∈ kv.2, CleanValue v) ∧ kv.2 ≠ []) →
      (∀ kv ∈ ents, kv.1 ∉ dictKeys es₀) →
      (dictKeys ents).Nodup →
      List.foldl parseAssocStep (some s, acc ++ [(some s, es₀)])
        (ents.map (fun kv => kv.1 ++ '=' :: joinOn ';' kv.2 ++ [';'])) =
        (some s, acc ++ [(some s, es₀ ++ ents)]) := by
  induction ents with
  | nil =>
    intro acc es₀ _ _ _ _
    simp
  | cons kv rest ih =>
    intro acc es₀ hacc hclean hfresh hnodup
    rw [List.map_cons, List.foldl_cons]
    obtain ⟨hkC, hvC, hvne⟩ := hclean kv (by simp)
    rw [parseAssocStep_entry _ _ kv.1 kv.2 hkC hvC hvne]
    rw [tableAssign_concat acc (some s) es₀ kv.1 kv.2 hacc]
    rw [dictSet_of_none es₀ kv.1 kv.2
      ((dictGet_eq_none es₀ kv.1).mpr (hfresh kv (by simp)))]
    simp only [dictKeys, List.map_cons, List.nodup_cons] at hnodup
    have hres := ih acc (es₀ ++ [(kv.1, kv.2)])
      hacc
      (fun x hx => hclean x (List.mem_cons_of_mem _ hx))
      (by
        intro x hx
        have h1 : x.1 ∉ dictKeys es₀ := hfresh x (List.mem_cons_of_mem _ hx)
        have h2 : x.1 ≠ kv.1 := by
          intro hc
          exact hnodup.1 (hc ▸ List.mem_map_of_mem Prod.fst hx)
        simp only [dictKeys, List.map_append, List.map_cons, List.map_nil,
          List.mem_append, List.mem_singleton, not_or]
        exact ⟨h1, h2⟩)
      hnodup.2
    rw [hres]
    simp

theorem parse_entries_fold_start (s : Str) (ents : List (Str × List Str))
    (hne : ents ≠ []) (acc : PTable)
    (hacc : (some s : Option Str) ∉ dictKeys acc)
    (hclean : ∀ kv ∈ ents, CleanKey kv.1 ∧ (∀ v ∈ kv.2, CleanValue v) ∧ kv.2 ≠ [])
    (hnodup : (dictKeys ents).Nodup) :
    List.foldl parseAssocStep (some s, acc)
      (ents.map (fun kv => kv.1 ++ '=' :: joinOn ';' kv.2 ++ [';'])) =
      (some s, acc ++ [(some s, ents)]) := by
  cases ents with
  | nil => exact absurd rfl hne
  | cons kv rest =>
    rw [List.map_cons, List.foldl_cons]
    obtain ⟨hkC, hvC, hvne⟩ := hclean kv (by simp)
    rw [parseAssocStep_entry _ _ kv.1 kv.2 hkC hvC hvne]
    rw [tableAssign_absent acc (some s) kv.1 kv.2 hacc]
    simp only [dictKeys, List.map_cons, List.nodup_cons] at hnodup
    have hres := parse_entries_fold s rest acc [(kv.1, kv.2)]
      hacc
      (fun x hx => hclean x (List.mem_cons_of_mem _ hx))
      (by
        intro x hx
        have h2 : x.1 ≠ kv.1 := by
          intro hc
          exact hnodup.1 (hc ▸ List.mem_map_of_mem Prod.fst hx)
        simp [dictKeys, h2])
      hnodup.2
    rw [hres]
    simp

theorem sortEntries_ne_nil (es : List (Str × List Str)) (h : es ≠ []) :
    sortEntries es ≠ [] := by
  intro hc
  have hlen := (sortEntries_perm es).length_eq
  rw [hc] at hlen
  simp at hlen
  exact h (List.length_eq_zero.mp hlen.symm)

theorem sortEntries_keys_nodup (es : List (Str × List Str))
    (h : (dictKeys es).Nodup) : (dictKeys (sortEntries es)).Nodup :=
  (((sortEntries_perm es).map Prod.fst).nodup_iff).mpr h

theorem parse_sections_fold (t : STable) :
    ∀ (acc : PTable) (sec₀ : Option Str),
      (∀ se ∈ t, (some se.1 : Option Str) ∉ dictKeys acc) →
      (dictKeys t).Nodup →
      (∀ se ∈ t, se.2 ≠ [] ∧ (dictKeys se.2).Nodup ∧
        ∀ kv ∈ se.2, CleanKey kv.1 ∧ (∀ v ∈ kv.2, CleanValue v) ∧ kv.2 ≠ []) →
      ∃ secF, List.foldl parseAssocStep (sec₀, acc)
        (t.flatMap (fun se => ('[' :: (se.1 ++ [']'])) ::
          (sortEntries se.2).map (fun kv => kv.1 ++ '=' :: joinOn ';' kv.2 ++ [';']))) =
        (secF, acc ++ t.map (fun se => ((some se.1 : Option Str), sortEntries se.2))) := by
  induction t with
  | nil =>
    intro acc sec₀ _ _ _
    exact ⟨sec₀, by simp⟩
  | cons se rest ih =>
    intro acc sec₀ hfresh hnodup hprops
    obtain ⟨hene, heknd, heclean⟩ := hprops se (by simp)
    simp only [dictKeys, List.map_cons, List.nodup_cons] at hnodup
    rw [List.flatMap_cons, List.cons_append, List.foldl_cons,
      parseAssocStep_header sec₀ acc se.1, List.foldl_append]
    rw [parse_entries_fold_start se.1 (sortEntries se.2)
      (sortEntries_ne_nil se.2 hene) acc (hfresh se (by simp))
      (fun kv hkv => heclean kv ((sortEntries_perm se.2).mem_iff.mp hkv))
      (sortEntries_keys_nodup se.2 heknd)]
    have hres := ih (acc ++ [(some se.1, sortEntries se.2)]) (some se.1)
      (by
        intro x hx
        have h1 : (some x.1 : Option Str) ∉ dictKeys acc :=
          hfresh x (List.mem_cons_of_mem _ hx)
        have h2 : x.1 ≠ se.1 := by
          intro hc
          exact hnodup.1 (hc ▸ List.mem_map_of_mem Prod.fst hx)
        simp only [dictKeys, List.map_append, List.map_cons, List.map_nil,
          List.mem_append, List.mem_singleton, not_or]
        exact ⟨h1, by simp [h2]⟩)
      hnodup.2
      (fun x hx => hprops x (List.mem_cons_of_mem _ hx))
    obtain ⟨secF, heq⟩ := hres
    refine ⟨secF, ?_⟩
    rw [heq]
    simp

theorem parseAssocStep_blank (st : Option Str × PTable) : parseAssocStep st [] = st := rfl

theorem splitAllOn_flatMap_newline (ls : List Str) (h : ∀ l ∈ ls, '\n' ∉ l) :
    splitAllOn '\n' (ls.flatMap (fun l => l ++ ['\n'])) = ls ++ [[]] := by
  induction ls with
  | nil => simp [splitAllOn]
  | cons l t ih =>
    have heq : (l :: t).flatMap (fun l => l ++ ['\n']) =
        l ++ '\n' :: t.flatMap (fun l => l ++ ['\n']) := by
      simp
    rw [heq, splitAllOn_append_first '\n' l _ (h l (by simp)),
      ih (fun x hx => h x (List.mem_cons_of_mem _ hx))]
    rfl

theorem remove_empty_props (t : STable) (h : CleanTable t) :
    (dictKeys (remove_empty_associations t)).Nodup ∧
    ∀ se ∈ remove_empty_associations t,
      '\n' ∉ se.1 ∧ se.2 ≠ [] ∧ (dictKeys se.2).Nodup ∧
      ∀ kv ∈ se.2, CleanKey kv.1 ∧ (∀ v ∈ kv.2, CleanValue v) ∧ kv.2 ≠ [] := by
  obtain ⟨hnd, hall⟩ := h
  constructor
  · have hsub : (remove_empty_associations t).Sublist
        (t.map (fun se => (se.1, se.2.filter (fun kv => kv.2 ≠ [])))) :=
      List.filter_sublist _
    have hkeysub := hsub.map Prod.fst
    have hkeq : dictKeys (t.map (fun se => (se.1, se.2.filter (fun kv => kv.2 ≠ [])))) =
        dictKeys t := by
      simp [dictKeys, List.map_map]
    have hkeysub2 : (dictKeys (remove_empty_associations t)).Sublist (dictKeys t) := by
      have h1 : (dictKeys (remove_empty_associations t)).Sublist
          (dictKeys (t.map (fun se => (se.1, se.2.filter (fun kv => kv.2 ≠ []))))) :=
        hkeysub
      rwa [hkeq] at h1
    exact hkeysub2.nodup hnd
  · intro se hse
    have hmem := List.mem_filter.mp hse
    obtain ⟨se₀, hse₀, hfe⟩ := List.mem_map.mp hmem.1
    obtain ⟨⟨hn, hr⟩, hknd, hkv⟩ := hall se₀ hse₀
    refine ⟨?_, ?_, ?_, ?_⟩
    · rw [← hfe]
      exact hn
    · have := hmem.2
      simpa using this
    · rw [← hfe]
      have hsub2 : (se₀.2.filter (fun kv => kv.2 ≠ [])).Sublist se₀.2 :=
        List.filter_sublist _
      exact (hsub2.map Prod.fst).nodup hknd
    · intro kv hkvmem
      rw [← hfe] at hkvmem
      have hm := List.mem_filter.mp hkvmem
      obtain ⟨hck, hcv⟩ := hkv kv hm.1
      refine ⟨hck, hcv, by simpa using hm.2⟩

theorem save_lines_eq (t : STable) (h : CleanTable t) :
    save_associations_lines t =
      (remove_empty_associations t).flatMap (fun se => ('[' :: (se.1 ++ [']'])) ::
        (sortEntries se.2).map (fun kv => kv.1 ++ '=' :: joinOn ';' kv.2 ++ [';']))
      ++ (if 1 < (remove_empty_associations t).length then [[]] else []) := by
  obtain ⟨-, hprops⟩ := remove_empty_props t h
  simp only [save_associations_lines]
  congr 1
  apply List.flatMap_congr
  intro se hse
  obtain ⟨-, hne, -, hkv⟩ := hprops se hse
  rw [if_neg hne]
  have hfeq : (sortEntries se.2).filter (fun kv => kv.2 ≠ []) = sortEntries se.2 := by
    apply List.filter_eq_self.mpr
    intro kv hkvmem
    have hmem : kv ∈ se.2 := (sortEntries_perm se.2).mem_iff.mp hkvmem
    simpa using (hkv kv hmem).2.2
  rw [hfeq]
  simp

theorem save_lines_no_newline (t : STable) (h : CleanTable t) :
    ∀ l ∈ save_associations_lines t, '\n' ∉ l := by
  obtain ⟨-, hprops⟩ := remove_empty_props t h
  rw [save_lines_eq t h]
  intro l hl
  rcases List.mem_append.mp hl with hl | hl
  · obtain ⟨se, hse, hlmem⟩ := List.mem_flatMap.mp hl
    obtain ⟨hn, -, -, hkv⟩ := hprops se hse
    cases hlmem with
    | head =>
      intro hc
      simp only [List.mem_cons, List.mem_append, List.mem_singleton] at hc
      rcases hc with hc | hc | hc
      · exact absurd hc (by decide)
      · exact hn hc
      · exact absurd hc (by decide)
    | tail _ hlmem =>
      obtain ⟨kv, hkvmem, hleq⟩ := List.mem_map.mp hlmem
      obtain ⟨hck, hcv, -⟩ := hkv kv ((sortEntries_perm se.2).mem_iff.mp hkvmem)
      obtain ⟨-, -, -, hckn, -, -, -⟩ := hck
      intro hc
      rw [← hleq] at hc
      simp only [List.append_assoc, List.cons_append, List.mem_append,
        List.mem_cons, List.mem_singleton] at hc
      rcases hc with hc | hc | hc
      · exact hckn hc
      · exact absurd hc (by decide)
      · rcases hc with hc | hc | hc
        · rcases mem_joinOn ';' '\n' kv.2 hc with hc | ⟨v, hv, hcv2⟩
          · exact absurd hc (by decide)
          · exact (hcv v hv).2.2.1 hcv2
        · exact absurd hc (by decide)
        · simp at hc
  · by_cases hc : 1 < (remove_empty_associations t).length
    · rw [if_pos hc] at hl
      rw [List.mem_singleton] at hl
      subst hl
      simp
    · rw [if_neg hc] at hl
      simp at hl

/-- C4 (amended): for every table whose section names are duplicate-free and
line-break-free, whose keys are duplicate-free, non-empty, free of equals
signs, line breaks and surrounding whitespace and do not start with the
comment character, and whose values are bare non-empty desktop identifiers
free of semicolons, path separators, line breaks and surrounding whitespace,
saving and then loading yields exactly the empty-value-pruned table with the
keys of each section reordered into sorted order. -/
theorem save_load_fixed_point (t : STable) (h : CleanTable t) :
    parse_associations (splitAllOn '\n' (save_associations t)) =
      (remove_empty_associations t).map
        (fun se => ((some se.1 : Option Str), sortEntries se.2)) := by
  obtain ⟨hPnd, hPprops⟩ := remove_empty_props t h
  unfold save_associations
  rw [splitAllOn_flatMap_newline _ (save_lines_no_newline t h)]
  unfold parse_associations
  rw [save_lines_eq t h]
  have hbody := parse_sections_fold (remove_empty_associations t) [] none
    (by simp [dictKeys])
    hPnd
    (fun se hse =>
      ⟨(hPprops se hse).2.1, (hPprops se hse).2.2.1, (hPprops se hse).2.2.2⟩)
  obtain ⟨secF, heq⟩ := hbody
  by_cases hlen : 1 < (remove_empty_associations t).length
  · rw [if_pos hlen, List.append_assoc, List.foldl_append, heq]
    simp [parseAssocStep_blank]
  · rw [if_neg hlen, List.append_nil, List.foldl_append, heq]
    simp [parseAssocStep_blank]

/-- C4 counterexample: a key starting with the comment character satisfies
the claim's value-only hypothesis, yet its written entry line reloads as a
comment, so the reloaded table is empty rather than the pruned original. -/
theorem save_load_cex :
    parse_associations (splitAllOn '\n' (save_associations
      [("Added Associations".toList, [("#key".toList, ["a.desktop".toList])])])) = [] ∧
    (remove_empty_associations
      [("Added Associations".toList, [("#key".toList, ["a.desktop".toList])])]).map
        (fun se => ((some se.1 : Option Str), sortEntries se.2)) ≠ [] :=
  ⟨rfl, by decide⟩

/-- Closed instance of C4 at a concrete clean table. -/
theorem save_load_fixed_point_witness :
    CleanTable [("S".toList, [("k".toList, ["a.desktop".toList])])] ∧
    parse_associations (splitAllOn '\n' (save_associations
      [("S".toList, [("k".toList, ["a.desktop".toList])])])) =
      (remove_empty_associations
        [("S".toList, [("k".toList, ["a.desktop".toList])])]).map
        (fun se => ((some se.1 : Option Str), sortEntries se.2)) := by
  have hCK : CleanKey "k".toList := by
    unfold CleanKey
    refine ⟨by decide, by decide, by decide, by decide, by decide, by decide, by decide⟩
  have hCV : CleanValue "a.desktop".toList := by
    unfold CleanValue
    refine ⟨by decide, by decide, by decide, by decide, by decide, by decide⟩
  have hct : CleanTable [("S".toList, [("k".toList, ["a.desktop".toList])])] := by
    refine ⟨by decide, ?_⟩
    intro se hse
    rw [List.mem_singleton] at hse
    subst hse
    refine ⟨⟨by decide, by decide⟩, by decide, ?_⟩
    intro kv hkv
    rw [List.mem_singleton] at hkv
    subst hkv
    refine ⟨hCK, ?_⟩
    intro v hv
    rw [List.mem_singleton] at hv
    subst hv
    exact hCV
  exact ⟨hct, save_load_fixed_point _ hct⟩

end Mimeo
